import Mathlib

/-!
Verification of the idempotent batch image-annotation workflow of
`text_detector.py` (functions `get_image_blobs`, `process_blob`,
`preprocess_image_for_ocr`, `draw_bounding_boxes`, `upload_processed_image`,
`get_image_uris`), shallowly embedded in Lean.

Python strings are modelled as lists of characters so that the string
operations used by the source (`split`, `in`, `endswith`, `lower`,
`os.path.splitext`) can be stated exactly.  The external collaborators
(Vision API, PIL codec, Cloud Storage URL scheme) are modelled as an
explicit environment of functions; raw byte strings are opaque tokens.
-/

set_option autoImplicit false
set_option maxRecDepth 4000

namespace TextDetector

/-- Object names, bases and URLs: Python strings as lists of characters. -/
abbrev Name := List Char

/-- Raw binary contents (downloaded bytes, encoded PNG bytes): opaque tokens. -/
abbrev Bytes := Nat

/-- A decoded image (PIL pixel buffer), as a flat list of pixel intensities,
so that the numpy mean-thresholding of `preprocess_image_for_ocr` can be
modelled concretely. -/
abbrev Img := List Nat

/-- The literal marker substring `"__boxed.png"` used throughout the source. -/
def marker : Name := "__boxed.png".data

/-- A stored object of the bucket: name, binary content, content type,
public flag; `downloadOk` models whether `blob.download_as_bytes()` succeeds. -/
structure Blob where
  name : Name
  content : Bytes
  contentType : String
  isPublic : Bool
  downloadOk : Bool
deriving DecidableEq, Repr

/-- One entry of `response.text_annotations`. -/
structure Annotation where
  description : String
  vertices : List (Int × Int)
deriving DecidableEq, Repr

/-- The Vision API response: `response.error.message` (empty when no error)
and `response.text_annotations`. -/
structure DetectResponse where
  errorMessage : String
  textAnnotations : List Annotation
deriving DecidableEq, Repr

/-- One `draw.line(box + [box[0]], width=2, fill="red")` call. -/
structure LineCmd where
  points : List (Int × Int)
  width : Nat
  fill : String
deriving DecidableEq, Repr

/-- The external collaborators: the text-detection service
(`vision_client.document_text_detection`), the PIL codec and filters, and the
storage URL scheme.  Each is a deterministic function of its input. -/
structure Env where
  detect : Bytes → DetectResponse
  decode : Bytes → Option Img
  grayscale : Img → Img
  gaussianBlur : Nat → Img → Img
  contrastEnhance2 : Img → Img
  sharpnessEnhance2 : Img → Img
  encodePNG : Img → Bytes
  encodeDrawn : Img → List LineCmd → Bytes
  publicURL : Name → Name

/-! ### Python string operations -/

/-- Python `s.split('.')[0]`: the portion of `s` before its first `'.'`. -/
def firstDotBase (s : Name) : Name := s.takeWhile (fun c => c ≠ '.')

/-- Python `s.split(pat)[0]` for a non-empty `pat`: the portion of `s`
before the first occurrence of `pat`. -/
def takeUntil (pat : Name) : Name → Name
  | [] => []
  | c :: rest => if pat.isPrefixOf (c :: rest) then [] else c :: takeUntil pat rest

/-- Python `name.split('__boxed.png')[0]`. -/
def stripMarker (s : Name) : Name := takeUntil marker s

/-- Splits a basename at its last `'.'`, returning `some (pre, suf)` with
`pre ++ suf = b` and `suf` starting at the last dot; `none` when `b` has no
dot. -/
def splitAtLastDot : Name → Option (Name × Name)
  | [] => none
  | c :: rest =>
    match splitAtLastDot rest with
    | some p => some (c :: p.1, p.2)
    | none => if c = '.' then some ([], c :: rest) else none

/-- Splits a path after its last `'/'` into `(head, basename)` with
`head ++ basename = p`; `head` is empty when there is no separator. -/
def afterLastSep : Name → Name × Name
  | [] => ([], [])
  | c :: rest =>
    let p := afterLastSep rest
    if p.1.isEmpty then (if c = '/' then ([c], rest) else ([], c :: rest))
    else (c :: p.1, p.2)

/-- `os.path.splitext`: split off the extension at the last dot of the
basename, except that a basename consisting only of leading dots before that
dot has no extension. -/
def splitext (p : Name) : Name × Name :=
  let d := afterLastSep p
  match splitAtLastDot d.2 with
  | none => (p, [])
  | some q => if q.1.any (fun ch => ch ≠ '.') then (d.1 ++ q.1, q.2) else (p, [])

/-- The fixed allow-list of the source. -/
def allowedExts : List Name :=
  [".png".data, ".jpg".data, ".jpeg".data, ".bmp".data, ".gif".data, ".webp".data]

/-- Python `name.lower().endswith(('.png', '.jpg', '.jpeg', '.bmp', '.gif', '.webp'))`. -/
def allowedExt (s : Name) : Bool :=
  allowedExts.any (fun e => e.isSuffixOf (s.map Char.toLower))

/-! ### The workflow, translated function by function -/

/-- The set `{blob.name.split('__boxed.png')[0] for blob in blobs if "__boxed.png" in blob.name}`
(as a list; only membership is ever used). -/
def boxedBases (blobs : List Blob) : List Name :=
  (blobs.filter (fun b => decide (marker <:+: b.name))).map (fun b => stripMarker b.name)

/-- `get_image_blobs`: returns the filtered candidate inputs together with the
full listing. -/
def get_image_blobs (blobs : List Blob) : List Blob × List Blob :=
  (blobs.filter (fun b =>
      !(decide (marker <:+: b.name)) &&
      !(decide (firstDotBase b.name ∈ boxedBases blobs)) &&
      allowedExt b.name),
   blobs)

/-- `np.where(img_array > mean, 255, 0)`: a pixel `p` exceeds the mean
`sum / length` exactly when `sum < p * length`. -/
def binarizeMean (a : Img) : Img :=
  a.map (fun p => if a.sum < p * a.length then 255 else 0)

/-- `preprocess_image_for_ocr`, acting on the already-decoded image:
grayscale, Gaussian blur of radius 1, contrast enhancement (factor 2.0),
binarization against the image's own mean, sharpening (factor 2.0). -/
def preprocess_image_for_ocr (env : Env) (img : Img) : Img :=
  let gray := env.grayscale img
  let blurred := env.gaussianBlur 1 gray
  let contrasted := env.contrastEnhance2 blurred
  let binary := binarizeMean contrasted
  env.sharpnessEnhance2 binary

/-- `box + [box[0]]`: closing a polygon; `box[0]` on an empty vertex list
raises an `IndexError`. -/
def closeBox (vs : List (Int × Int)) : Except String (List (Int × Int)) :=
  match vs with
  | [] => .error "IndexError: list index out of range"
  | v :: rest => .ok ((v :: rest) ++ [v])

/-- The drawing loop `for text in texts[1:]: ... draw.line(box + [box[0]], width=2, fill="red")`. -/
def boxCmds (texts : List Annotation) : Except String (List LineCmd) :=
  (texts.drop 1).mapM (fun t =>
    (closeBox t.vertices).map (fun pts => { points := pts, width := 2, fill := "red" }))

/-- `draw_bounding_boxes`: decode the given bytes, draw one closed 2px
polygon per annotation except the first, re-encode as PNG. -/
def draw_bounding_boxes (env : Env) (content : Bytes) (texts : List Annotation) :
    Except String (Bytes × List LineCmd) :=
  match env.decode content with
  | none => .error "cannot identify image file"
  | some img =>
    match boxCmds texts with
    | .error e => .error e
    | .ok cmds => .ok (env.encodeDrawn img cmds, cmds)

/-- `upload_processed_image`: output name `os.path.splitext(blob.name)[0] + '__boxed.png'`,
content type `image/png`, made public; returns the blob and its public URL. -/
def upload_processed_image (env : Env) (imageBytes : Bytes) (blob : Blob) : Blob × Name :=
  let outName := (splitext blob.name).1 ++ marker
  ({ name := outName, content := imageBytes, contentType := "image/png",
     isPublic := true, downloadOk := true },
   env.publicURL outName)

/-- The observable outcome of one successful `process_blob` call: the bytes
submitted to the detection service (in order), the annotation list finally
used, the uploaded blob and its URL (when text was found), the bytes the
drawing decoded, and the drawing commands issued. -/
structure ProcOut where
  detectCalls : List Bytes
  texts : List Annotation
  uploaded : Option Blob
  url : Option Name
  drawBase : Option Bytes
  drawCmds : List LineCmd
deriving DecidableEq, Repr

/-- `blob.download_as_bytes()`. -/
def download (b : Blob) : Except String Bytes :=
  if b.downloadOk then .ok b.content else .error "download failed"

/-- The constant tail of the exception message raised on a Vision API error. -/
def visionErrorNote : String :=
  "\nFor more info on error messages, check: https://cloud.google.com/apis/design/errors"

/-- The detection part of `process_blob`: first detection call, the raise on
a reported service error, and the single preprocessing fallback when no text
annotation was returned.  Yields the annotation list finally used together
with the bytes submitted to the service, in order. -/
def detectPhase (env : Env) (content : Bytes) : Except String (List Annotation × List Bytes) :=
  let response := env.detect content
  if response.errorMessage ≠ "" then
    .error (response.errorMessage ++ visionErrorNote)
  else if response.textAnnotations.isEmpty then
    match env.decode content with
    | none => .error "cannot identify image file"
    | some img =>
      let preBytes := env.encodePNG (preprocess_image_for_ocr env img)
      .ok ((env.detect preBytes).textAnnotations, [content, preBytes])
  else .ok (response.textAnnotations, [content])

/-- The tail of `process_blob`: when annotations exist, draw the boxes on the
original bytes and upload; otherwise return `None` (no URL, no upload). -/
def finishPhase (env : Env) (blob : Blob) (content : Bytes)
    (tc : List Annotation × List Bytes) : Except String ProcOut :=
  if tc.1.isEmpty then
    .ok { detectCalls := tc.2, texts := tc.1, uploaded := none, url := none,
          drawBase := none, drawCmds := [] }
  else
    match draw_bounding_boxes env content tc.1 with
    | .error e => .error e
    | .ok bc =>
      let up := upload_processed_image env bc.1 blob
      .ok { detectCalls := tc.2, texts := tc.1, uploaded := some up.1,
            url := some up.2, drawBase := some content, drawCmds := bc.2 }

/-- `process_blob`: download, detect, raise on a reported service error,
preprocess and re-detect once when no text was found, draw boxes on the
original bytes and upload when text was found, return `None` otherwise.
Uncaught Python exceptions are the `.error` results. -/
def process_blob (env : Env) (blob : Blob) : Except String ProcOut :=
  match download blob with
  | .error e => .error e
  | .ok content =>
    match detectPhase env content with
    | .error e => .error e
    | .ok tc => finishPhase env blob content tc

/-- The outcome of a whole `get_image_uris` run: the returned URI list, the
uploads performed (in order), and the per-candidate outcomes. -/
structure RunResult where
  uris : List Name
  uploads : List Blob
  outs : List ProcOut
deriving DecidableEq, Repr

/-- The URIs one processed blob contributes:
`if processed_blob_uri: image_uris.append(processed_blob_uri)` (Python
truthiness: `None` and the empty string contribute nothing). -/
def urlList (o : ProcOut) : List Name :=
  match o.url with
  | none => []
  | some u => if u.isEmpty then [] else [u]

/-- The `for blob in image_blobs` loop of `get_image_uris`, threading the
accumulated URI list, uploads and outcomes; an exception aborts the loop. -/
def processLoop (env : Env) : List Blob → List Name → List Blob → List ProcOut →
    Except String RunResult
  | [], uris, ups, outs => .ok { uris := uris, uploads := ups, outs := outs }
  | b :: rest, uris, ups, outs =>
    match process_blob env b with
    | .error e => .error e
    | .ok out =>
      processLoop env rest (uris ++ urlList out) (ups ++ out.uploaded.toList) (outs ++ [out])

/-- `get_image_uris`, over a given bucket listing: first append every
marker-bearing blob's public URL (in listing order), then process the
candidate inputs in order. -/
def get_image_uris (env : Env) (blobs : List Blob) : Except String RunResult :=
  let pair := get_image_blobs blobs
  let boxedUris := blobs.foldl
    (fun acc b => if marker <:+: b.name then acc ++ [env.publicURL b.name] else acc)
    ([] : List Name)
  processLoop env pair.1 boxedUris [] []

/-- `bucket.blob(name).upload_from_file(...)`: overwrite the object of that
name when it exists, create it otherwise. -/
def upsert (blobs : List Blob) (u : Blob) : List Blob :=
  if blobs.any (fun b => decide (b.name = u.name)) then
    blobs.map (fun b => if b.name = u.name then u else b)
  else blobs ++ [u]

/-- The bucket listing after a run: the original listing with every upload
applied in order. -/
def applyUploads (blobs : List Blob) (ups : List Blob) : List Blob :=
  ups.foldl upsert blobs

/-! ### Predicates used by the claims -/

/-- A name whose first-dot base (`name.split('.')[0]`, used by the filter)
agrees with its extension-stripped base (`os.path.splitext(name)[0]`, used by
the output naming). -/
def goodName (n : Name) : Prop := firstDotBase n = (splitext n).1

/-- An input is already annotated in a listing when an output object exists
whose pre-marker portion equals the input's extension-stripped base. -/
def alreadyAnnotated (blobs : List Blob) (b : Blob) : Prop :=
  ∃ o ∈ blobs, marker <:+: o.name ∧ stripMarker o.name = (splitext b.name).1

/-- Candidate classification as the specification words it: no marker, an
allow-listed extension, and no output object whose base name (the name with
the marker, respectively the extension, stripped) corresponds to the input's. -/
def specCandidate (blobs : List Blob) (b : Blob) : Prop :=
  ¬ marker <:+: b.name ∧ allowedExt b.name = true ∧ ¬ alreadyAnnotated blobs b

instance (blobs : List Blob) (b : Blob) : Decidable (alreadyAnnotated blobs b) :=
  decidable_of_iff
    (∃ o ∈ blobs, marker <:+: o.name ∧ stripMarker o.name = (splitext b.name).1) Iff.rfl

instance (blobs : List Blob) (b : Blob) : Decidable (specCandidate blobs b) :=
  instDecidableAnd

instance (n : Name) : Decidable (goodName n) :=
  decidable_of_iff (firstDotBase n = (splitext n).1) Iff.rfl

/-! ### Concrete instances used to exercise the model

A small deterministic environment: content `10` is a decodable image with two
text annotations (the whole-page aggregate plus one fragment), content `20`
is a decodable image with no detectable text (before and after
preprocessing), content `30` triggers a Vision API error response, content
`40` is undecodable bytes, and `99` is the encoding of any preprocessed
image. -/

def envA : Env :=
  { detect := fun b =>
      if b = 10 then
        { errorMessage := "",
          textAnnotations :=
            [ { description := "whole", vertices := [(0, 0), (5, 0), (5, 5), (0, 5)] },
              { description := "frag", vertices := [(1, 1), (2, 1), (2, 2), (1, 2)] } ] }
      else if b = 30 then { errorMessage := "quota exceeded", textAnnotations := [] }
      else { errorMessage := "", textAnnotations := [] },
    decode := fun b => if b = 10 ∨ b = 20 then some [1, 2, 3] else none,
    grayscale := id,
    gaussianBlur := fun _ i => i,
    contrastEnhance2 := id,
    sharpnessEnhance2 := id,
    encodePNG := fun _ => 99,
    encodeDrawn := fun _ _ => 50,
    publicURL := fun n => "https://storage/".data ++ n }

def blobPng : Blob :=
  { name := "a.png".data, content := 10, contentType := "image/png",
    isPublic := false, downloadOk := true }

def blobJpg : Blob :=
  { name := "b.jpg".data, content := 10, contentType := "image/jpeg",
    isPublic := false, downloadOk := true }

def blobBoxed : Blob :=
  { name := "a__boxed.png".data, content := 50, contentType := "image/png",
    isPublic := true, downloadOk := true }

def blobNotes : Blob :=
  { name := "notes.txt".data, content := 0, contentType := "text/plain",
    isPublic := false, downloadOk := true }

def blobNoText : Blob :=
  { name := "n.png".data, content := 20, contentType := "image/png",
    isPublic := false, downloadOk := true }

def blobBad : Blob :=
  { name := "bad.png".data, content := 40, contentType := "image/png",
    isPublic := false, downloadOk := false }

def blobUndec : Blob :=
  { name := "u.png".data, content := 40, contentType := "image/png",
    isPublic := false, downloadOk := true }

def blobErr : Blob :=
  { name := "e.png".data, content := 30, contentType := "image/png",
    isPublic := false, downloadOk := true }

/-- The specification's worked example bucket `{a.png, a__boxed.png, b.jpg, notes.txt}`. -/
def exampleBucket : List Blob := [blobPng, blobBoxed, blobJpg, blobNotes]

/-- A multi-dot input name: the filter derives base `a` (first dot) while the
output naming derives base `a.b` (last dot). -/
def blobAB : Blob :=
  { name := "a.b.png".data, content := 10, contentType := "image/png",
    isPublic := false, downloadOk := true }

def blobABboxed : Blob :=
  { name := "a.b__boxed.png".data, content := 50, contentType := "image/png",
    isPublic := true, downloadOk := true }

/-- The two annotations `envA` returns for content `10`. -/
def txA : List Annotation :=
  [ { description := "whole", vertices := [(0, 0), (5, 0), (5, 5), (0, 5)] },
    { description := "frag", vertices := [(1, 1), (2, 1), (2, 2), (1, 2)] } ]

/-- The single closed 2px box drawn for the second annotation of `txA`. -/
def cmdA : LineCmd :=
  { points := [(1, 1), (2, 1), (2, 2), (1, 2), (1, 1)], width := 2, fill := "red" }

def ubPng : Blob :=
  { name := "a__boxed.png".data, content := 50, contentType := "image/png",
    isPublic := true, downloadOk := true }

/-- The outcome of processing `blobPng` under `envA`. -/
def outPng : ProcOut :=
  { detectCalls := [10], texts := txA, uploaded := some ubPng,
    url := some "https://storage/a__boxed.png".data, drawBase := some 10,
    drawCmds := [cmdA] }

def ubAB : Blob :=
  { name := "a.b__boxed.png".data, content := 50, contentType := "image/png",
    isPublic := true, downloadOk := true }

/-- The outcome of processing the multi-dot `blobAB` under `envA`. -/
def outAB : ProcOut :=
  { detectCalls := [10], texts := txA, uploaded := some ubAB,
    url := some "https://storage/a.b__boxed.png".data, drawBase := some 10,
    drawCmds := [cmdA] }

/-- The result of running the workflow on the one-object bucket `[blobAB]`. -/
def runAB : RunResult :=
  { uris := ["https://storage/a.b__boxed.png".data], uploads := [ubAB], outs := [outAB] }

def ubJpg : Blob :=
  { name := "b__boxed.png".data, content := 50, contentType := "image/png",
    isPublic := true, downloadOk := true }

/-- The outcome of processing `blobJpg` under `envA`. -/
def outJpg : ProcOut :=
  { detectCalls := [10], texts := txA, uploaded := some ubJpg,
    url := some "https://storage/b__boxed.png".data, drawBase := some 10,
    drawCmds := [cmdA] }

/-- The outcome of a candidate with no text even after the fallback. -/
def outNone : ProcOut :=
  { detectCalls := [20, 99], texts := [], uploaded := none, url := none,
    drawBase := none, drawCmds := [] }

/-- A bucket with one pre-existing output, one input with text and one input
without text. -/
def bucket9 : List Blob := [blobBoxed, blobJpg, blobNoText]

/-- The result of running the workflow on the one-object bucket `[blobPng]`. -/
def runPng : RunResult :=
  { uris := ["https://storage/a__boxed.png".data], uploads := [ubPng], outs := [outPng] }

/-- The result of running the workflow on `bucket9` under `envA`. -/
def run9 : RunResult :=
  { uris := ["https://storage/a__boxed.png".data, "https://storage/b__boxed.png".data],
    uploads := [ubJpg], outs := [outJpg, outNone] }

/-! ### String lemmas -/

theorem marker_ne_nil : marker ≠ [] := by decide

/-- The marker has no self-overlap: no proper non-empty prefix of it is also
a suffix.  This is what makes "first occurrence of the marker" well behaved
under appending the marker. -/
theorem markerNoBorder :
    ∀ j < marker.length, 0 < j → marker.take (marker.length - j) ≠ marker.drop j := by
  decide

theorem not_infix_of_cons {p l : Name} {a : Char} (h : ¬ p <:+: a :: l) : ¬ p <:+: l := by
  intro hi
  obtain ⟨s, t, ht⟩ := hi
  exact h ⟨a :: s, t, by rw [← ht]; rfl⟩

/-- `s.split(marker)[0]` recovers `s` when the marker does not occur in `s`
and the marker is appended: the first occurrence of the marker in
`s ++ marker` is the appended one. -/
theorem takeUntil_marker_append :
    ∀ l : Name, ¬ marker <:+: l → takeUntil marker (l ++ marker) = l := by
  intro l
  induction l with
  | nil => intro _; decide
  | cons c rest ih =>
    intro h
    have hnp : marker.isPrefixOf (c :: (rest ++ marker)) = false := by
      rw [Bool.eq_false_iff]
      intro hp
      rw [ List.isPrefixOf_iff_prefix, ← List.cons_append] at hp
      rcases Nat.lt_or_ge (c :: rest).length marker.length with hlt | hle
      case inr =>
        have htake := (List.prefix_iff_eq_take).1 hp
        rw [List.take_append_eq_append_take, Nat.sub_eq_zero_of_le hle,
          List.take_zero, List.append_nil] at htake
        exact h (List.IsPrefix.isInfix (htake ▸ ( List.take_prefix marker.length (c :: rest))))
      case inl =>
        have htake := (List.prefix_iff_eq_take).1 hp
        rw [List.take_append_eq_append_take] at htake
        have hrest : (c :: rest).take marker.length = c :: rest :=
          List.take_of_length_le (Nat.le_of_lt hlt)
        rw [hrest] at htake
        have hdrop : marker.drop (c :: rest).length =
            marker.take (marker.length - (c :: rest).length) := by
          conv_lhs => rw [htake]
          rw [List.drop_append_eq_append_drop, List.drop_of_length_le (Nat.le_refl _),
            Nat.sub_self, List.nil_append, List.drop_zero]
        exact markerNoBorder (c :: rest).length hlt (Nat.succ_pos _) hdrop.symm
    have h' : ¬ marker <:+: rest := not_infix_of_cons h
    calc takeUntil marker ((c :: rest) ++ marker)
        = c :: takeUntil marker (rest ++ marker) := by
          rw [List.cons_append, takeUntil, hnp]; simp
      _ = c :: rest := by rw [ih h']

theorem afterLastSep_append : ∀ p : Name, (afterLastSep p).1 ++ (afterLastSep p).2 = p := by
  intro p
  induction p with
  | nil => rfl
  | cons c rest ih =>
    rw [afterLastSep]
    by_cases hq : (afterLastSep rest).1.isEmpty
    · by_cases hc : c = '/' <;> simp [hq, hc]
    · simp [hq, ih]

theorem splitAtLastDot_append :
    ∀ b q, splitAtLastDot b = some q → q.1 ++ q.2 = b := by
  intro b
  induction b with
  | nil => intro q hq; simp [splitAtLastDot] at hq
  | cons c rest ih =>
    intro q hq
    rw [splitAtLastDot] at hq
    rcases hp : splitAtLastDot rest with _ | p
    · rw [hp] at hq
      by_cases hc : c = '.'
      · rw [if_pos hc] at hq
        simp only [Option.some.injEq] at hq
        rw [← hq]
        simp [hc]
      · rw [if_neg hc] at hq
        simp at hq
    · rw [hp] at hq
      simp only [Option.some.injEq] at hq
      have := ih p hp
      rw [← hq]
      simp [this]

/-- The extension-stripped base of a name is one of its prefixes. -/
theorem splitext_base_prefix_self (p : Name) : (splitext p).1 <+: p := by
  rw [splitext]
  rcases hq : splitAtLastDot (afterLastSep p).2 with _ | q
  · exact List.prefix_refl p
  · by_cases hc : q.1.any (fun ch => ch ≠ '.')
    · simp only [hc, if_pos]
      refine ⟨q.2, ?_⟩
      rw [List.append_assoc, splitAtLastDot_append _ q hq, afterLastSep_append]
    · simp only [hc]
      exact List.prefix_refl p

/-- The marker does not occur in the extension-stripped base of a marker-free
name. -/
theorem not_marker_infix_base {n : Name} (h : ¬ marker <:+: n) :
    ¬ marker <:+: (splitext n).1 := by
  intro hi
  exact h (hi.trans (List.IsPrefix.isInfix (splitext_base_prefix_self n)))

/-! ### Filtering lemmas (`get_image_blobs`) -/

theorem mem_boxedBases_iff (blobs : List Blob) (x : Name) :
    x ∈ boxedBases blobs ↔ ∃ o ∈ blobs, marker <:+: o.name ∧ stripMarker o.name = x := by
  simp only [boxedBases, List.mem_map, List.mem_filter, decide_eq_true_eq]
  constructor
  · rintro ⟨o, ⟨ho, hm⟩, hx⟩
    exact ⟨o, ho, hm, hx⟩
  · rintro ⟨o, ho, hm, hx⟩
    exact ⟨o, ⟨ho, hm⟩, hx⟩

theorem mem_image_blobs_iff (blobs : List Blob) (b : Blob) :
    b ∈ (get_image_blobs blobs).1 ↔
      b ∈ blobs ∧ ¬ marker <:+: b.name ∧ firstDotBase b.name ∉ boxedBases blobs ∧
        allowedExt b.name = true := by
  simp [get_image_blobs, List.mem_filter, and_assoc]

/-- Candidate inputs never carry the marker. -/
theorem image_blobs_no_marker {blobs : List Blob} {b : Blob}
    (h : b ∈ (get_image_blobs blobs).1) : ¬ marker <:+: b.name :=
  ((mem_image_blobs_iff blobs b).1 h).2.1

theorem image_blobs_base_not_boxed {blobs : List Blob} {b : Blob}
    (h : b ∈ (get_image_blobs blobs).1) : firstDotBase b.name ∉ boxedBases blobs :=
  ((mem_image_blobs_iff blobs b).1 h).2.2.1

/-! ### `process_blob` case lemmas -/

theorem download_ok_iff (b : Blob) (c : Bytes) :
    download b = .ok c ↔ b.downloadOk = true ∧ c = b.content := by
  rcases hd : b.downloadOk <;> simp [download, hd, eq_comm]

theorem process_blob_download_fail (env : Env) (b : Blob) (hd : b.downloadOk = false) :
    process_blob env b = .error "download failed" := by
  simp [process_blob, download, hd]

theorem process_blob_vision_error (env : Env) (b : Blob) (hd : b.downloadOk = true)
    (he : (env.detect b.content).errorMessage ≠ "") :
    process_blob env b = .error ((env.detect b.content).errorMessage ++ visionErrorNote) := by
  simp [process_blob, download, hd, detectPhase, he]

theorem process_blob_decode_fail (env : Env) (b : Blob) (hd : b.downloadOk = true)
    (he : (env.detect b.content).errorMessage = "")
    (hdec : env.decode b.content = none) :
    process_blob env b = .error "cannot identify image file" := by
  by_cases h0 : (env.detect b.content).textAnnotations.isEmpty
  · simp [process_blob, download, hd, detectPhase, he, h0, hdec]
  · simp [process_blob, download, hd, detectPhase, he, h0, finishPhase,
      draw_bounding_boxes, hdec]

/-- Characterization of a successful `mapM` over `Except`. -/
theorem exceptMapM_ok_iff {α β : Type} (f : α → Except String β) :
    ∀ (l : List α) (outs : List β),
      l.mapM f = .ok outs ↔ List.Forall₂ (fun a o => f a = .ok o) l outs := by
  intro l
  induction l with
  | nil =>
    intro outs
    constructor
    · intro h
      simp only [List.mapM_nil, pure] at h
      cases h
      exact List.Forall₂.nil
    · intro h
      cases h
      rfl
  | cons a l ih =>
    intro outs
    rw [List.mapM_cons]
    constructor
    · intro h
      cases hfa : f a with
      | error e =>
        rw [hfa] at h
        simp [Bind.bind, Except.bind] at h
      | ok o =>
        rw [hfa] at h
        cases hrest : l.mapM f with
        | error e =>
          rw [hrest] at h
          simp [Bind.bind, Except.bind] at h
        | ok os =>
          rw [hrest] at h
          simp only [Bind.bind, Except.bind, pure, Except.pure, Except.ok.injEq] at h
          cases h
          exact List.Forall₂.cons hfa ((ih os).1 hrest)
    · intro h
      cases h with
      | cons hh ht =>
        rw [hh, (ih _).2 ht]
        rfl

/-- If some element of the list fails, the whole `mapM` fails. -/
theorem exceptMapM_error {α β : Type} (f : α → Except String β) :
    ∀ (l : List α), (∃ a ∈ l, ∃ e, f a = .error e) →
      ∃ e, l.mapM f = .error e := by
  intro l
  induction l with
  | nil => rintro ⟨a, ha, _⟩; cases ha
  | cons a l ih =>
    rintro ⟨x, hx, e, hfe⟩
    rw [List.mapM_cons]
    cases hfa : f a with
    | error e' => exact ⟨e', rfl⟩
    | ok o =>
      have hx' : x ∈ l := by
        cases List.mem_cons.1 hx with
        | inl hh => rw [hh] at hfe; rw [hfe] at hfa; cases hfa
        | inr hh => exact hh
      obtain ⟨e'', hrest⟩ := ih ⟨x, hx', e, hfe⟩
      exact ⟨e'', by rw [hrest]; rfl⟩

/-- Successful `detectPhase` outcomes: either the first call already carried
annotations (one call), or it carried none, the bytes decoded, and the single
fallback call's annotations are used (two calls, the second on the
preprocessed bytes). -/
theorem detectPhase_ok (env : Env) (content : Bytes) (tc : List Annotation × List Bytes)
    (h : detectPhase env content = .ok tc) :
    (env.detect content).errorMessage = "" ∧
    (((env.detect content).textAnnotations ≠ [] ∧
        tc = ((env.detect content).textAnnotations, [content])) ∨
     ((env.detect content).textAnnotations = [] ∧
        ∃ img, env.decode content = some img ∧
          tc = ((env.detect (env.encodePNG (preprocess_image_for_ocr env img))).textAnnotations,
                [content, env.encodePNG (preprocess_image_for_ocr env img)]))) := by
  simp only [detectPhase] at h
  by_cases he : (env.detect content).errorMessage = ""
  · rw [if_neg (by simp [he])] at h
    by_cases h0 : (env.detect content).textAnnotations.isEmpty
    · rw [if_pos h0] at h
      cases hdec : env.decode content with
      | none => rw [hdec] at h; cases h
      | some img =>
        rw [hdec] at h
        simp only [Except.ok.injEq] at h
        exact ⟨he, Or.inr ⟨List.isEmpty_iff.mp h0, img, rfl, h.symm⟩⟩
    · rw [if_neg h0] at h
      simp only [Except.ok.injEq] at h
      exact ⟨he, Or.inl ⟨fun hh => h0 (by simp [hh]), h.symm⟩⟩
  · rw [if_pos he] at h
    cases h

/-- Successful `finishPhase` outcomes: either no annotations (no upload, no
URL, no drawing), or annotations exist, the original bytes decode, every
fragment after the first yields a closed box, and the upload record has the
marker-derived name, PNG content type and public flag. -/
theorem finishPhase_ok (env : Env) (b : Blob) (content : Bytes)
    (tc : List Annotation × List Bytes) (out : ProcOut)
    (h : finishPhase env b content tc = .ok out) :
    (tc.1 = [] ∧
      out = { detectCalls := tc.2, texts := tc.1, uploaded := none, url := none,
              drawBase := none, drawCmds := [] }) ∨
    (tc.1 ≠ [] ∧ ∃ img cmds, env.decode content = some img ∧ boxCmds tc.1 = .ok cmds ∧
      out = { detectCalls := tc.2, texts := tc.1,
              uploaded := some { name := (splitext b.name).1 ++ marker,
                                 content := env.encodeDrawn img cmds,
                                 contentType := "image/png", isPublic := true,
                                 downloadOk := true },
              url := some (env.publicURL ((splitext b.name).1 ++ marker)),
              drawBase := some content, drawCmds := cmds }) := by
  simp only [finishPhase] at h
  by_cases h1 : tc.1.isEmpty
  · rw [if_pos h1] at h
    simp only [Except.ok.injEq] at h
    exact Or.inl ⟨List.isEmpty_iff.mp h1, h.symm⟩
  · rw [if_neg h1] at h
    simp only [draw_bounding_boxes] at h
    cases hdec : env.decode content with
    | none => rw [hdec] at h; cases h
    | some img =>
      rw [hdec] at h
      cases hbc : boxCmds tc.1 with
      | error e => rw [hbc] at h; cases h
      | ok cmds =>
        rw [hbc] at h
        simp only [upload_processed_image, Except.ok.injEq] at h
        exact Or.inr ⟨fun hh => h1 (by simp [hh]), img, cmds, rfl, rfl, h.symm⟩

/-- A successful `process_blob` decomposes into a successful download, a
successful detection phase and a successful finish phase. -/
theorem process_blob_ok_split (env : Env) (b : Blob) (out : ProcOut)
    (h : process_blob env b = .ok out) :
    b.downloadOk = true ∧
    ∃ tc, detectPhase env b.content = .ok tc ∧ finishPhase env b b.content tc = .ok out := by
  simp only [process_blob] at h
  cases hdl : download b with
  | error e => simp only [hdl] at h; cases h
  | ok content =>
    simp only [hdl] at h
    obtain ⟨hok, hc⟩ := (download_ok_iff b content).1 hdl
    subst hc
    cases hdp : detectPhase env b.content with
    | error e => simp only [hdp] at h; cases h
    | ok tc =>
      simp only [hdp] at h
      exact ⟨hok, tc, rfl, h⟩

theorem forall₂_mem_right {α β : Type} {R : α → β → Prop} :
    ∀ {l1 : List α} {l2 : List β}, List.Forall₂ R l1 l2 → ∀ b ∈ l2, ∃ a ∈ l1, R a b := by
  intro l1 l2 h
  induction h with
  | nil => intro b hb; cases hb
  | cons hr _ ih =>
    intro b hb
    cases List.mem_cons.1 hb with
    | inl hh => exact ⟨_, List.mem_cons_self _ _, hh ▸ hr⟩
    | inr hh =>
      obtain ⟨a, ha, har⟩ := ih b hh
      exact ⟨a, List.mem_cons_of_mem _ ha, har⟩

theorem closeBox_ok (vs : List (Int × Int)) (pts : List (Int × Int))
    (h : closeBox vs = .ok pts) : ∃ v vs', vs = v :: vs' ∧ pts = (v :: vs') ++ [v] := by
  cases vs with
  | nil => cases h
  | cons v vs' =>
    simp only [closeBox, Except.ok.injEq] at h
    exact ⟨v, vs', rfl, h.symm⟩

/-- The drawing loop draws one closed 2px red polygon per annotation except
the first. -/
theorem boxCmds_ok (texts : List Annotation) (cmds : List LineCmd)
    (h : boxCmds texts = .ok cmds) :
    cmds.length = texts.length - 1 ∧
    ∀ c ∈ cmds, c.width = 2 ∧ c.fill = "red" ∧ ∃ v vs, c.points = (v :: vs) ++ [v] := by
  have hf := (exceptMapM_ok_iff _ (texts.drop 1) cmds).1 h
  constructor
  · have hlen := hf.length_eq
    rw [List.length_drop] at hlen
    omega
  · intro c hc
    obtain ⟨t, _, htc⟩ := forall₂_mem_right hf c hc
    cases hcb : closeBox t.vertices with
    | error e => rw [hcb] at htc; cases htc
    | ok pts =>
      rw [hcb] at htc
      simp only [Except.map, Except.ok.injEq] at htc
      obtain ⟨v, vs', _, hpts⟩ := closeBox_ok _ _ hcb
      rw [← htc]
      exact ⟨rfl, rfl, v, vs', by rw [hpts]⟩

/-! ### The run loop -/

theorem processLoop_ok_iff (env : Env) :
    ∀ (l : List Blob) (uris : List Name) (ups : List Blob) (outs : List ProcOut)
      (r : RunResult),
      processLoop env l uris ups outs = .ok r ↔
        ∃ news, List.Forall₂ (fun b o => process_blob env b = .ok o) l news ∧
          r.uris = uris ++ news.flatMap urlList ∧
          r.uploads = ups ++ news.flatMap (fun o => o.uploaded.toList) ∧
          r.outs = outs ++ news := by
  intro l
  induction l with
  | nil =>
    intro uris ups outs r
    simp only [processLoop, Except.ok.injEq]
    constructor
    · intro h
      refine ⟨[], List.Forall₂.nil, ?_, ?_, ?_⟩ <;> simp [← h]
    · rintro ⟨news, hf, h1, h2, h3⟩
      cases hf
      simp only [List.flatMap_nil, List.append_nil] at h1 h2 h3
      cases r
      simp_all
  | cons b rest ih =>
    intro uris ups outs r
    simp only [processLoop]
    cases hpb : process_blob env b with
    | error e =>
      constructor
      · intro h; cases h
      · rintro ⟨news, hf, _⟩
        cases hf with
        | cons hh _ => rw [hpb] at hh; cases hh
    | ok out =>
      rw [ih]
      constructor
      · rintro ⟨news, hf, h1, h2, h3⟩
        refine ⟨out :: news, List.Forall₂.cons hpb hf, ?_, ?_, ?_⟩ <;>
          simp [h1, h2, h3, List.flatMap_cons]
      · rintro ⟨news, hf, h1, h2, h3⟩
        cases hf with
        | cons hh ht =>
          rw [hpb] at hh
          cases hh
          refine ⟨_, ht, ?_, ?_, ?_⟩ <;> simp [h1, h2, h3, List.flatMap_cons]

theorem boxedUris_foldl (env : Env) (blobs : List Blob) :
    ∀ init : List Name,
      blobs.foldl
        (fun acc b => if marker <:+: b.name then acc ++ [env.publicURL b.name] else acc) init =
      init ++ (blobs.filter (fun b => decide (marker <:+: b.name))).map
        (fun b => env.publicURL b.name) := by
  induction blobs with
  | nil => intro init; simp
  | cons b rest ih =>
    intro init
    by_cases hm : marker <:+: b.name
    · simp only [List.foldl_cons, if_pos hm, List.filter_cons, decide_eq_true hm]
      rw [ih]
      simp
    · simp only [List.foldl_cons, if_neg hm, List.filter_cons]
      rw [ih]
      simp [hm]

/-- Characterization of a successful run: the returned URI list is the
pre-existing outputs' URLs in listing order followed by the URLs contributed
by the processed candidates in candidate-listing order. -/
theorem get_image_uris_ok_iff (env : Env) (blobs : List Blob) (r : RunResult) :
    get_image_uris env blobs = .ok r ↔
      ∃ news, List.Forall₂ (fun b o => process_blob env b = .ok o)
          (get_image_blobs blobs).1 news ∧
        r.uris = (blobs.filter (fun b => decide (marker <:+: b.name))).map
            (fun b => env.publicURL b.name) ++ news.flatMap urlList ∧
        r.uploads = news.flatMap (fun o => o.uploaded.toList) ∧
        r.outs = news := by
  unfold get_image_uris
  rw [processLoop_ok_iff, boxedUris_foldl]
  simp

/-- If some candidate fails, the whole run fails: nothing catches per-object
exceptions in the processing loop. -/
theorem processLoop_error (env : Env) :
    ∀ (l : List Blob), (∃ b ∈ l, ∃ e, process_blob env b = .error e) →
      ∀ (uris : List Name) (ups : List Blob) (outs : List ProcOut),
        ∃ e', processLoop env l uris ups outs = .error e' := by
  intro l
  induction l with
  | nil => rintro ⟨b, hb, _⟩; cases hb
  | cons a l ih =>
    rintro ⟨x, hx, e, hfe⟩ uris ups outs
    cases hpa : process_blob env a with
    | error e' => exact ⟨e', by simp only [processLoop, hpa]⟩
    | ok out =>
      have hx' : x ∈ l := by
        cases List.mem_cons.1 hx with
        | inl hh => rw [hh] at hfe; rw [hfe] at hpa; cases hpa
        | inr hh => exact hh
      obtain ⟨e'', hrest⟩ := ih ⟨x, hx', e, hfe⟩ (uris ++ urlList out)
        (ups ++ out.uploaded.toList) (outs ++ [out])
      exact ⟨e'', by simp only [processLoop, hpa]; exact hrest⟩

theorem get_image_uris_error (env : Env) (blobs : List Blob) (b : Blob)
    (hb : b ∈ (get_image_blobs blobs).1) (e : String)
    (hpb : process_blob env b = .error e) :
    ∃ e', get_image_uris env blobs = .error e' := by
  unfold get_image_uris
  exact processLoop_error env _ ⟨b, hb, e, hpb⟩ _ _ _

/-- The no-text-even-after-fallback outcome: two detection calls (the second
on the preprocessed bytes), no upload, no URL, no error. -/
theorem process_blob_noText (env : Env) (b : Blob) (img : Img)
    (hd : b.downloadOk = true)
    (he : (env.detect b.content).errorMessage = "")
    (h0 : (env.detect b.content).textAnnotations = [])
    (hdec : env.decode b.content = some img)
    (h2 : (env.detect (env.encodePNG (preprocess_image_for_ocr env img))).textAnnotations = []) :
    process_blob env b =
      .ok { detectCalls := [b.content, env.encodePNG (preprocess_image_for_ocr env img)],
            texts := [], uploaded := none, url := none,
            drawBase := none, drawCmds := [] } := by
  simp [process_blob, download, hd, detectPhase, he, h0, hdec, finishPhase, h2]

/-- At most two detection calls ever happen for one object: the fallback is
never applied a second time. -/
theorem process_blob_calls_le_two (env : Env) (b : Blob) (out : ProcOut)
    (h : process_blob env b = .ok out) : out.detectCalls.length ≤ 2 := by
  obtain ⟨_, tc, hdp, hfin⟩ := process_blob_ok_split env b out h
  obtain ⟨_, hcases⟩ := detectPhase_ok env b.content tc hdp
  have hcalls : out.detectCalls = tc.2 := by
    rcases finishPhase_ok env b b.content tc out hfin with ⟨_, ho⟩ | ⟨_, _, _, _, _, ho⟩ <;>
      simp [ho]
  rcases hcases with ⟨_, htc⟩ | ⟨_, _, _, htc⟩ <;> simp [hcalls, htc]

/-- The upload record of a successful processing: marker-derived name, PNG
content type, public, and the URL is that object's public URL. -/
theorem process_blob_upload_shape (env : Env) (b : Blob) (out : ProcOut) (ub : Blob)
    (h : process_blob env b = .ok out) (hub : out.uploaded = some ub) :
    ub.name = (splitext b.name).1 ++ marker ∧
    ub.contentType = "image/png" ∧ ub.isPublic = true ∧
    out.url = some (env.publicURL ub.name) := by
  obtain ⟨_, tc, _, hfin⟩ := process_blob_ok_split env b out h
  rcases finishPhase_ok env b b.content tc out hfin with ⟨_, ho⟩ | ⟨_, img, cmds, _, _, ho⟩
  · rw [ho] at hub; cases hub
  · rw [ho] at hub
    simp only [Option.some.injEq] at hub
    rw [ho, ← hub]
    exact ⟨rfl, rfl, rfl, rfl⟩

/-- A successful processing yields a URL exactly when it uploaded something. -/
theorem process_blob_url_uploaded (env : Env) (b : Blob) (out : ProcOut)
    (h : process_blob env b = .ok out) :
    (out.url = none ↔ out.uploaded = none) := by
  obtain ⟨_, tc, _, hfin⟩ := process_blob_ok_split env b out h
  rcases finishPhase_ok env b b.content tc out hfin with ⟨_, ho⟩ | ⟨_, _, _, _, _, ho⟩ <;>
    simp [ho]

/-- With never-empty public URLs, the URI contribution of a processed object
is exactly its optional URL. -/
theorem urlList_eq_toList (env : Env) (b : Blob) (out : ProcOut)
    (h : process_blob env b = .ok out) (hurl : ∀ n, env.publicURL n ≠ []) :
    urlList out = out.url.toList := by
  cases hu : out.url with
  | none => simp [urlList, hu]
  | some u =>
    have hub : out.uploaded ≠ none := by
      intro hn
      rw [(process_blob_url_uploaded env b out h).2 hn] at hu
      cases hu
    cases hub' : out.uploaded with
    | none => exact absurd hub' hub
    | some ub =>
      obtain ⟨_, _, _, hurl'⟩ := process_blob_upload_shape env b out ub h hub'
      rw [hu] at hurl'
      simp only [Option.some.injEq] at hurl'
      have : ¬ u.isEmpty := by
        rw [hurl']
        simpa [List.isEmpty_iff] using hurl ub.name
      simp [urlList, hu, this]

theorem flatMap_urlList_eq_filterMap (env : Env) (hurl : ∀ n, env.publicURL n ≠ []) :
    ∀ {l : List Blob} {news : List ProcOut},
      List.Forall₂ (fun b o => process_blob env b = .ok o) l news →
      news.flatMap urlList = news.filterMap ProcOut.url := by
  intro l news h
  induction h with
  | nil => rfl
  | @cons b o l1 l2 hr _ ih =>
    rw [List.flatMap_cons, List.filterMap_cons, urlList_eq_toList env b o hr hurl, ih]
    cases o.url <;> simp [Option.toList]

/-! ### Two-run lemmas for the idempotence claim -/

theorem forall₂_mem_left {α β : Type} {R : α → β → Prop} :
    ∀ {l1 : List α} {l2 : List β}, List.Forall₂ R l1 l2 → ∀ a ∈ l1, ∃ b ∈ l2, R a b := by
  intro l1 l2 h
  induction h with
  | nil => intro a ha; cases ha
  | cons hr _ ih =>
    intro a ha
    cases List.mem_cons.1 ha with
    | inl hh => exact ⟨_, List.mem_cons_self _ _, hh ▸ hr⟩
    | inr hh =>
      obtain ⟨b, hb, hbr⟩ := ih a hh
      exact ⟨b, List.mem_cons_of_mem _ hb, hbr⟩

theorem mem_flatMap_uploaded {news : List ProcOut} {u : Blob} :
    u ∈ news.flatMap (fun o => o.uploaded.toList) ↔ ∃ o ∈ news, o.uploaded = some u := by
  rw [List.mem_flatMap]
  constructor
  · rintro ⟨o, ho, hu⟩
    cases hob : o.uploaded with
    | none => rw [hob] at hu; cases hu
    | some x =>
      rw [hob] at hu
      simp only [Option.toList, List.mem_singleton] at hu
      exact ⟨o, ho, by rw [hob, hu]⟩
  · rintro ⟨o, ho, hu⟩
    exact ⟨o, ho, by simp [hu, Option.toList]⟩

theorem boxedBases_append (B tail : List Blob) :
    boxedBases (B ++ tail) = boxedBases B ++ boxedBases tail := by
  simp [boxedBases, List.filter_append]

theorem marker_infix_append_self (base : Name) : marker <:+: base ++ marker :=
  ⟨base, [], by simp⟩

/-- Every upload a successful run performs carries the marker in its name,
derives its pre-marker portion from some candidate's (first-dot) base, and is
fresh: no object of that name was in the original listing. -/
theorem run_uploads_shape (env : Env) (B : List Blob) (r1 : RunResult)
    (hgood : ∀ b ∈ (get_image_blobs B).1, goodName b.name)
    (h1 : get_image_uris env B = .ok r1) :
    ∀ u ∈ r1.uploads, marker <:+: u.name ∧
      (∃ c ∈ (get_image_blobs B).1, stripMarker u.name = firstDotBase c.name) ∧
      u.name ∉ B.map Blob.name := by
  obtain ⟨news, hf, _, hup, _⟩ := (get_image_uris_ok_iff env B r1).1 h1
  intro u hu
  rw [hup] at hu
  obtain ⟨o, ho, hou⟩ := mem_flatMap_uploaded.1 hu
  obtain ⟨c, hc, hco⟩ := forall₂_mem_right hf o ho
  obtain ⟨hn, _, _, _⟩ := process_blob_upload_shape env c o u hco hou
  have hcm : ¬ marker <:+: c.name := image_blobs_no_marker hc
  have hstrip : stripMarker u.name = (splitext c.name).1 := by
    rw [hn]
    exact takeUntil_marker_append _ (not_marker_infix_base hcm)
  have hgc : firstDotBase c.name = (splitext c.name).1 := hgood c hc
  refine ⟨by rw [hn]; exact marker_infix_append_self _,
    ⟨c, hc, hstrip.trans hgc.symm⟩, ?_⟩
  intro hmem
  obtain ⟨b0, hb0, hb0n⟩ := List.mem_map.1 hmem
  have hmb0 : marker <:+: b0.name := by rw [hb0n, hn]; exact marker_infix_append_self _
  have hbbB : stripMarker b0.name ∈ boxedBases B :=
    (mem_boxedBases_iff B _).2 ⟨b0, hb0, hmb0, rfl⟩
  rw [hb0n, hstrip, ← hgc] at hbbB
  exact image_blobs_base_not_boxed hc hbbB

/-- One `upsert` of an upload whose name is fresh with respect to the prefix
`B` only touches the `tail` part: it either overwrites a same-named blob of
the tail or appends. -/
theorem upsert_decomp (B tail : List Blob) (u : Blob)
    (hfresh : u.name ∉ B.map Blob.name) :
    ∃ tail1, upsert (B ++ tail) u = B ++ tail1 ∧
      (∀ t ∈ tail1, t = u ∨ t ∈ tail) ∧
      (∀ x ∈ tail, ∃ t ∈ tail1, t.name = x.name) ∧
      (∃ t ∈ tail1, t.name = u.name) := by
  have hBname : ∀ b ∈ B, b.name ≠ u.name := by
    intro b hb heq
    exact hfresh (List.mem_map.2 ⟨b, hb, heq⟩)
  have hBany : B.any (fun b => decide (b.name = u.name)) = false := by
    rw [List.any_eq_false]
    intro b hb
    simp only [decide_eq_true_eq]
    exact hBname b hb
  have hmapId : ∀ L : List Blob, (∀ b ∈ L, b.name ≠ u.name) →
      L.map (fun b => if b.name = u.name then u else b) = L := by
    intro L hL
    induction L with
    | nil => rfl
    | cons x xs ih =>
      rw [List.map_cons, if_neg (hL x (List.mem_cons_self x xs)),
        ih (fun y hy => hL y (List.mem_cons_of_mem _ hy))]
  have hBmap := hmapId B hBname
  unfold upsert
  rw [List.any_append, hBany, Bool.false_or]
  by_cases htany : tail.any (fun b => decide (b.name = u.name)) = true
  · rw [if_pos htany, List.map_append, hBmap]
    obtain ⟨x, hx, hxn⟩ := List.any_eq_true.1 htany
    rw [decide_eq_true_eq] at hxn
    refine ⟨tail.map (fun b => if b.name = u.name then u else b), rfl, ?_, ?_, ?_⟩
    · intro t ht
      obtain ⟨x', hx', hxt⟩ := List.mem_map.1 ht
      by_cases hh : x'.name = u.name
      · rw [if_pos hh] at hxt; exact Or.inl hxt.symm
      · rw [if_neg hh] at hxt; exact Or.inr (hxt ▸ hx')
    · intro x' hx'
      by_cases hh : x'.name = u.name
      · exact ⟨u, List.mem_map.2 ⟨x', hx', by rw [if_pos hh]⟩, hh.symm⟩
      · exact ⟨x', List.mem_map.2 ⟨x', hx', by rw [if_neg hh]⟩, rfl⟩
    · exact ⟨u, List.mem_map.2 ⟨x, hx, by rw [if_pos hxn]⟩, rfl⟩
  · rw [if_neg htany, List.append_assoc]
    refine ⟨tail ++ [u], rfl, ?_, ?_, ?_⟩
    · intro t ht
      rcases List.mem_append.1 ht with h | h
      · exact Or.inr h
      · exact Or.inl (List.mem_singleton.1 h)
    · intro x hx
      exact ⟨x, List.mem_append_left _ hx, rfl⟩
    · exact ⟨u, List.mem_append_right _ (List.mem_singleton.2 rfl), rfl⟩

theorem applyUploads_decomp :
    ∀ (ups tail B : List Blob),
      (∀ u ∈ ups, u.name ∉ B.map Blob.name) →
      ∃ tail', ups.foldl upsert (B ++ tail) = B ++ tail' ∧
        (∀ t ∈ tail', t ∈ ups ∨ t ∈ tail) ∧
        (∀ x ∈ tail, ∃ t ∈ tail', t.name = x.name) ∧
        (∀ u ∈ ups, ∃ t ∈ tail', t.name = u.name) := by
  intro ups
  induction ups with
  | nil =>
    intro tail B _
    exact ⟨tail, rfl, fun t ht => Or.inr ht, fun x hx => ⟨x, hx, rfl⟩,
      fun u hu => absurd hu (List.not_mem_nil u)⟩
  | cons u ups' ih =>
    intro tail B h
    have hu := h u (List.mem_cons_self u ups')
    obtain ⟨tail1, heq, hp1, hp2, hp3⟩ := upsert_decomp B tail u hu
    rw [List.foldl_cons, heq]
    obtain ⟨tail', heq', hq1, hq2, hq3⟩ :=
      ih tail1 B (fun u' hu' => h u' (List.mem_cons_of_mem _ hu'))
    refine ⟨tail', heq', ?_, ?_, ?_⟩
    · intro t ht
      rcases hq1 t ht with h1 | h1
      · exact Or.inl (List.mem_cons_of_mem _ h1)
      · rcases hp1 t h1 with h2 | h2
        · exact Or.inl (h2 ▸ List.mem_cons_self u ups')
        · exact Or.inr h2
    · intro x hx
      obtain ⟨t1, ht1, hn1⟩ := hp2 x hx
      obtain ⟨t', ht', hn'⟩ := hq2 t1 ht1
      exact ⟨t', ht', hn'.trans hn1⟩
    · intro u' hu'
      rcases List.mem_cons.1 hu' with h1 | h1
      · obtain ⟨t1, ht1, hn1⟩ := hp3
        obtain ⟨t', ht', hn'⟩ := hq2 t1 ht1
        exact ⟨t', ht', by rw [hn', hn1, h1]⟩
      · exact hq3 u' h1

/-- The bucket after a run with fresh upload names: the original listing plus
a tail made of (some of the) uploads, covering all upload names. -/
theorem applyUploads_fresh (B ups : List Blob)
    (h : ∀ u ∈ ups, u.name ∉ B.map Blob.name) :
    ∃ tail, applyUploads B ups = B ++ tail ∧
      (∀ t ∈ tail, t ∈ ups) ∧
      (∀ u ∈ ups, ∃ t ∈ tail, t.name = u.name) := by
  obtain ⟨tail, heq, h1, _, h3⟩ := applyUploads_decomp ups [] B h
  refine ⟨tail, ?_, ?_, h3⟩
  · rw [applyUploads, ← heq, List.append_nil]
  · intro t ht
    rcases h1 t ht with hh | hh
    · exact hh
    · cases hh

/-- Appending marker-bearing objects to a listing shrinks the candidate set
pointwise: a candidate of the grown listing is a candidate of the original
one whose base also avoids the grown boxed-base set. -/
theorem mem_cands_append (B tail : List Blob)
    (htail : ∀ t ∈ tail, marker <:+: t.name) (b : Blob) :
    b ∈ (get_image_blobs (B ++ tail)).1 ↔
      b ∈ (get_image_blobs B).1 ∧ firstDotBase b.name ∉ boxedBases (B ++ tail) := by
  rw [mem_image_blobs_iff, mem_image_blobs_iff]
  constructor
  · rintro ⟨hmem, hm, hbb, hext⟩
    rcases List.mem_append.1 hmem with h | h
    · refine ⟨⟨h, hm, ?_, hext⟩, hbb⟩
      intro hin
      exact hbb (by rw [boxedBases_append]; exact List.mem_append_left _ hin)
    · exact absurd (htail b h) hm
  · rintro ⟨⟨hmem, hm, _, hext⟩, hbb⟩
    exact ⟨List.mem_append_left _ hmem, hm, hbb, hext⟩

theorem boxedFilter_append (B tail : List Blob)
    (htail : ∀ t ∈ tail, marker <:+: t.name) :
    (B ++ tail).filter (fun b => decide (marker <:+: b.name)) =
      B.filter (fun b => decide (marker <:+: b.name)) ++ tail := by
  rw [List.filter_append]
  congr 1
  rw [List.filter_eq_self]
  intro t ht
  simp [htail t ht]

/-- Running the loop over candidates that all end with no text: everything
succeeds, no URL and no upload is contributed. -/
theorem run_of_all_none (env : Env) (l : List Blob)
    (h : ∀ b ∈ l, ∃ o, process_blob env b = .ok o ∧ o.url = none ∧ o.uploaded = none) :
    ∃ news, List.Forall₂ (fun b o => process_blob env b = .ok o) l news ∧
      news.flatMap urlList = [] ∧ news.flatMap (fun o => o.uploaded.toList) = [] := by
  induction l with
  | nil => exact ⟨[], List.Forall₂.nil, rfl, rfl⟩
  | cons b l ih =>
    obtain ⟨o, ho, hu, hup⟩ := h b (List.mem_cons_self b l)
    obtain ⟨news, hf, h1, h2⟩ := ih (fun x hx => h x (List.mem_cons_of_mem _ hx))
    refine ⟨o :: news, List.Forall₂.cons ho hf, ?_, ?_⟩
    · rw [List.flatMap_cons, h1]
      simp [urlList, hu]
    · rw [List.flatMap_cons, h2]
      simp [hup, Option.toList]

/-- With never-empty public URLs, the URLs a run's processing contributes are
exactly the public URLs of the names it uploads, in order. -/
theorem flatMap_urlList_eq_uploads_map (env : Env) (hurl : ∀ n, env.publicURL n ≠ [])
    {l : List Blob} {news : List ProcOut}
    (hf : List.Forall₂ (fun b o => process_blob env b = .ok o) l news) :
    news.flatMap urlList =
      (news.flatMap (fun o => o.uploaded.toList)).map (fun u => env.publicURL u.name) := by
  induction hf with
  | nil => rfl
  | @cons b o l1 l2 hr _ ih =>
    rw [List.flatMap_cons, List.flatMap_cons, List.map_append, ih]
    congr 1
    cases hub : o.uploaded with
    | none =>
      have hun : o.url = none := (process_blob_url_uploaded env b o hr).2 hub
      simp [urlList, hun, hub, Option.toList]
    | some ub =>
      obtain ⟨_, _, _, hou⟩ := process_blob_upload_shape env b o ub hr hub
      have hne : ¬ (env.publicURL ub.name).isEmpty := by
        simpa [List.isEmpty_iff] using hurl ub.name
      simp [urlList, hou, hub, hne, Option.toList]

/-! ### The claims -/

/-- Claim C2, amended: an object name is selected as a candidate input iff
it does not contain the marker substring, its (lower-cased) name ends with an
allow-listed extension, and no output object exists whose pre-marker portion
equals the portion of the name before its FIRST dot (the code's base-name
correspondence; for single-dot names this coincides with stripping the
extension).  In particular `notes.txt` is never a candidate, and for the
bucket `{a.png, a__boxed.png, b.jpg, notes.txt}` the eligible inputs are
exactly `{b.jpg}`. -/
theorem C2_candidate_classification (blobs : List Blob) (b : Blob) :
    (b ∈ (get_image_blobs blobs).1 ↔
      b ∈ blobs ∧ ¬ marker <:+: b.name ∧ allowedExt b.name = true ∧
        ¬ ∃ o ∈ blobs, marker <:+: o.name ∧ stripMarker o.name = firstDotBase b.name) ∧
    (b.name = "notes.txt".data → b ∉ (get_image_blobs blobs).1) ∧
    (get_image_blobs exampleBucket).1.map Blob.name = ["b.jpg".data] := by
  refine ⟨?_, ?_, by decide⟩
  · rw [mem_image_blobs_iff]
    have hbx := mem_boxedBases_iff blobs (firstDotBase b.name)
    constructor
    · rintro ⟨h1, h2, h3, h4⟩
      exact ⟨h1, h2, h4, fun hex => h3 (hbx.2 hex)⟩
    · rintro ⟨h1, h2, h4, hne⟩
      exact ⟨h1, h2, fun hmem => hne (hbx.1 hmem), h4⟩
  · intro hn hmem
    have hext := ((mem_image_blobs_iff blobs b).1 hmem).2.2.2
    rw [hn] at hext
    have hno : allowedExt ("notes.txt".data) = false := by decide
    rw [hno] at hext
    cases hext

/-- Claim C2 counterexample: in the bucket `{a.b.png, a.b__boxed.png}` an
output object exists whose base name (extension-stripped, as the
specification words it) corresponds to `a.b.png`, yet the code still selects
`a.b.png` as a candidate, because the filter compares the portion before the
FIRST dot (`a`) with the output's pre-marker portion (`a.b`). -/
theorem C2_counterexample :
    (get_image_blobs [blobAB, blobABboxed]).1 = [blobAB] ∧
    alreadyAnnotated [blobAB, blobABboxed] blobAB ∧
    ¬ specCandidate [blobAB, blobABboxed] blobAB := by
  exact ⟨by decide, by decide, by decide⟩

/-- Witness for C2: `notes.txt` is not a candidate in the example bucket. -/
theorem C2_witness : blobNotes ∉ (get_image_blobs exampleBucket).1 :=
  (C2_candidate_classification exampleBucket blobNotes).2.1 rfl

/-- Claim C3, amended: a download failure is caught nowhere: `process_blob`
raises, the exception propagates out of the processing loop, and the whole
batch is aborted (no per-object skip, no continuation). -/
theorem C3_download_failure_aborts (env : Env) (blobs : List Blob) (b : Blob)
    (hb : b ∈ (get_image_blobs blobs).1) (hd : b.downloadOk = false) :
    process_blob env b = .error "download failed" ∧
    ∃ e, get_image_uris env blobs = .error e := by
  have hpb := process_blob_download_fail env b hd
  exact ⟨hpb, get_image_uris_error env blobs b hb _ hpb⟩

/-- Claim C3 counterexample: with a first object whose download fails and a
second perfectly processable object, the run aborts with the download error
instead of skipping the first object and continuing the batch. -/
theorem C3_counterexample :
    get_image_uris envA [blobBad, blobPng] = .error "download failed" ∧
    (get_image_blobs [blobBad, blobPng]).1 = [blobBad, blobPng] :=
  ⟨rfl, by decide⟩

/-- Witness for C3. -/
theorem C3_witness :
    process_blob envA blobBad = .error "download failed" ∧
    ∃ e, get_image_uris envA [blobBad, blobPng] = .error e :=
  C3_download_failure_aborts envA [blobBad, blobPng] blobBad (by decide) rfl

/-- Claim C4, amended: bytes that do not decode as an image are caught
nowhere: whether the decode is attempted by the preprocessing fallback or by
the drawing step, `process_blob` raises and the whole batch is aborted. -/
theorem C4_decode_failure_aborts (env : Env) (blobs : List Blob) (b : Blob)
    (hb : b ∈ (get_image_blobs blobs).1) (hd : b.downloadOk = true)
    (he : (env.detect b.content).errorMessage = "")
    (hdec : env.decode b.content = none) :
    process_blob env b = .error "cannot identify image file" ∧
    ∃ e, get_image_uris env blobs = .error e := by
  have hpb := process_blob_decode_fail env b hd he hdec
  exact ⟨hpb, get_image_uris_error env blobs b hb _ hpb⟩

/-- Claim C4 counterexample: an undecodable first object aborts the run with
the decode error; the second, valid object is never reached. -/
theorem C4_counterexample :
    get_image_uris envA [blobUndec, blobPng] = .error "cannot identify image file" ∧
    (get_image_blobs [blobUndec, blobPng]).1 = [blobUndec, blobPng] :=
  ⟨rfl, by decide⟩

/-- Witness for C4. -/
theorem C4_witness :
    process_blob envA blobUndec = .error "cannot identify image file" ∧
    ∃ e, get_image_uris envA [blobUndec, blobPng] = .error e :=
  C4_decode_failure_aborts envA [blobUndec, blobPng] blobUndec (by decide) rfl rfl rfl

/-- Claim C5: a detection response carrying a non-empty error message makes
`process_blob` raise an exception containing that message, and the exception
propagates to the caller of the run: the whole batch is aborted. -/
theorem C5_fatal_detection_error (env : Env) (blobs : List Blob) (b : Blob)
    (hb : b ∈ (get_image_blobs blobs).1) (hd : b.downloadOk = true)
    (hm : (env.detect b.content).errorMessage ≠ "") :
    process_blob env b = .error ((env.detect b.content).errorMessage ++ visionErrorNote) ∧
    ∃ e, get_image_uris env blobs = .error e := by
  have hpb := process_blob_vision_error env b hd hm
  exact ⟨hpb, get_image_uris_error env blobs b hb _ hpb⟩

/-- Witness for C5. -/
theorem C5_witness :
    process_blob envA blobErr =
      .error ((envA.detect blobErr.content).errorMessage ++ visionErrorNote) ∧
    ∃ e, get_image_uris envA [blobErr] = .error e :=
  C5_fatal_detection_error envA [blobErr] blobErr (by decide) rfl (by decide)

/-- Claim C6: when the first detection call returns no annotation (and no
error) and the bytes decode, the workflow preprocesses the image (grayscale,
blur of radius 1, contrast increase, binarization of each pixel against the
image's own mean, sharpen), issues exactly one second detection call on the
encoded preprocessed image, and never applies the fallback a second time
(never more than two detection calls for one object). -/
theorem C6_preprocessing_fallback_once (env : Env) (b : Blob) (img : Img)
    (hd : b.downloadOk = true)
    (he : (env.detect b.content).errorMessage = "")
    (h0 : (env.detect b.content).textAnnotations = [])
    (hdec : env.decode b.content = some img)
    (h2 : (env.detect (env.encodePNG (env.sharpnessEnhance2 (binarizeMean
        (env.contrastEnhance2 (env.gaussianBlur 1 (env.grayscale img))))))).textAnnotations
          = []) :
    process_blob env b =
      .ok { detectCalls := [b.content,
              env.encodePNG (env.sharpnessEnhance2 (binarizeMean
                (env.contrastEnhance2 (env.gaussianBlur 1 (env.grayscale img)))))],
            texts := [], uploaded := none, url := none, drawBase := none, drawCmds := [] } ∧
    ∀ (b' : Blob) (out : ProcOut), process_blob env b' = .ok out →
      out.detectCalls.length ≤ 2 := by
  have hpipe : preprocess_image_for_ocr env img =
      env.sharpnessEnhance2 (binarizeMean
        (env.contrastEnhance2 (env.gaussianBlur 1 (env.grayscale img)))) := rfl
  refine ⟨?_, fun b' out h => process_blob_calls_le_two env b' out h⟩
  rw [← hpipe] at h2 ⊢
  exact process_blob_noText env b img hd he h0 hdec h2

/-- Witness for C6. -/
theorem C6_witness :
    process_blob envA blobNoText =
      .ok { detectCalls := [blobNoText.content,
              envA.encodePNG (envA.sharpnessEnhance2 (binarizeMean
                (envA.contrastEnhance2 (envA.gaussianBlur 1 (envA.grayscale [1, 2, 3])))))],
            texts := [], uploaded := none, url := none, drawBase := none, drawCmds := [] } ∧
    outNone.detectCalls.length ≤ 2 :=
  ⟨(C6_preprocessing_fallback_once envA blobNoText [1, 2, 3] rfl rfl rfl rfl (by decide)).1,
   (C6_preprocessing_fallback_once envA blobNoText [1, 2, 3] rfl rfl rfl rfl
      (by decide)).2 blobNoText outNone rfl⟩

/-- Claim C7: whenever processing produced a URL (text was found, on either
detection call), the drawing decoded the ORIGINAL downloaded bytes, drew
exactly N - 1 closed polygon outlines of stroke width 2 for the N detected
fragments (skipping the first, whole-page fragment), and the uploaded bytes
are the re-encoding of the decoded original image with those drawings. -/
theorem C7_fragment_exclusion (env : Env) (b : Blob) (out : ProcOut) (u : Name)
    (h : process_blob env b = .ok out) (hu : out.url = some u) :
    1 ≤ out.texts.length ∧
    out.drawBase = some b.content ∧
    out.drawCmds.length = out.texts.length - 1 ∧
    (∀ c ∈ out.drawCmds, c.width = 2 ∧ ∃ v vs, c.points = (v :: vs) ++ [v]) ∧
    ∃ img ub, env.decode b.content = some img ∧ out.uploaded = some ub ∧
      ub.content = env.encodeDrawn img out.drawCmds := by
  obtain ⟨_, tc, _, hfin⟩ := process_blob_ok_split env b out h
  rcases finishPhase_ok env b b.content tc out hfin with ⟨_, ho⟩ |
    ⟨hne, img, cmds, hdec, hbc, ho⟩
  · rw [ho] at hu; cases hu
  · obtain ⟨hlen, hprops⟩ := boxCmds_ok tc.1 cmds hbc
    subst ho
    refine ⟨?_, rfl, hlen, ?_, img, _, hdec, rfl, rfl⟩
    · exact Nat.one_le_iff_ne_zero.2 (fun hz => hne (List.eq_nil_of_length_eq_zero hz))
    · intro c hc
      obtain ⟨hw, _, hv⟩ := hprops c hc
      exact ⟨hw, hv⟩

/-- Witness for C7. -/
theorem C7_witness :
    1 ≤ outPng.texts.length ∧
    outPng.drawBase = some blobPng.content ∧
    outPng.drawCmds.length = outPng.texts.length - 1 ∧
    (∀ c ∈ outPng.drawCmds, c.width = 2 ∧ ∃ v vs, c.points = (v :: vs) ++ [v]) ∧
    ∃ img ub, envA.decode blobPng.content = some img ∧ outPng.uploaded = some ub ∧
      ub.content = envA.encodeDrawn img outPng.drawCmds :=
  C7_fragment_exclusion envA blobPng outPng ("https://storage/a__boxed.png".data) rfl rfl

/-- Claim C8: the upload of a successfully processed input names the output
object base-plus-marker (`os.path.splitext(name)[0] + '__boxed.png'`), sets
content type `image/png`, makes it public, returns that object's public URL,
and stripping the marker from the produced output name recovers exactly the
originating input's extension-stripped base. -/
theorem C8_output_naming (env : Env) (b : Blob) (out : ProcOut) (ub : Blob)
    (h : process_blob env b = .ok out) (hub : out.uploaded = some ub)
    (hm : ¬ marker <:+: b.name) :
    ub.name = (splitext b.name).1 ++ marker ∧
    ub.contentType = "image/png" ∧
    ub.isPublic = true ∧
    out.url = some (env.publicURL ub.name) ∧
    stripMarker ub.name = (splitext b.name).1 := by
  obtain ⟨hn, hct, hp, hurl⟩ := process_blob_upload_shape env b out ub h hub
  refine ⟨hn, hct, hp, hurl, ?_⟩
  rw [hn]
  exact takeUntil_marker_append _ (not_marker_infix_base hm)

/-- Witness for C8. -/
theorem C8_witness :
    ubPng.name = (splitext blobPng.name).1 ++ marker ∧
    ubPng.contentType = "image/png" ∧
    ubPng.isPublic = true ∧
    outPng.url = some (envA.publicURL ubPng.name) ∧
    stripMarker ubPng.name = (splitext blobPng.name).1 :=
  C8_output_naming envA blobPng outPng ubPng rfl rfl (by decide)

theorem publicURL_envA_ne_nil (n : Name) : envA.publicURL n ≠ [] := by
  intro h
  have h2 : 'h' :: ("ttps://storage/".data ++ n) = [] := h
  cases h2

/-- Claim C9: a successful run returns all pre-existing outputs' public URLs
first, in bucket listing order, followed by the URLs of newly produced
outputs in the order their inputs were listed; an input with no text found
even after the fallback contributes no URL and raises no error. -/
theorem C9_result_order (env : Env) (blobs : List Blob) (r : RunResult)
    (hurl : ∀ n, env.publicURL n ≠ [])
    (h : get_image_uris env blobs = .ok r) :
    (∃ outs, List.Forall₂ (fun b o => process_blob env b = .ok o)
        (get_image_blobs blobs).1 outs ∧
      r.uris = (blobs.filter (fun b => decide (marker <:+: b.name))).map
          (fun b => env.publicURL b.name) ++ outs.filterMap ProcOut.url) ∧
    (∀ (b : Blob) (img : Img), b.downloadOk = true →
      (env.detect b.content).errorMessage = "" →
      (env.detect b.content).textAnnotations = [] →
      env.decode b.content = some img →
      (env.detect (env.encodePNG (preprocess_image_for_ocr env img))).textAnnotations = [] →
      process_blob env b =
        .ok { detectCalls := [b.content, env.encodePNG (preprocess_image_for_ocr env img)],
              texts := [], uploaded := none, url := none,
              drawBase := none, drawCmds := [] }) := by
  obtain ⟨news, hf, h1, _, _⟩ := (get_image_uris_ok_iff env blobs r).1 h
  refine ⟨⟨news, hf, ?_⟩,
    fun b img hd he h0 hdec h2 => process_blob_noText env b img hd he h0 hdec h2⟩
  rw [h1, flatMap_urlList_eq_filterMap env hurl hf]

/-- Witness for C9. -/
theorem C9_witness :
    (∃ outs, List.Forall₂ (fun b o => process_blob envA b = .ok o)
        (get_image_blobs bucket9).1 outs ∧
      run9.uris = (bucket9.filter (fun b => decide (marker <:+: b.name))).map
          (fun b => envA.publicURL b.name) ++ outs.filterMap ProcOut.url) ∧
    process_blob envA blobNoText =
      .ok { detectCalls := [blobNoText.content,
              envA.encodePNG (preprocess_image_for_ocr envA [1, 2, 3])],
            texts := [], uploaded := none, url := none,
            drawBase := none, drawCmds := [] } :=
  ⟨(C9_result_order envA bucket9 run9 publicURL_envA_ne_nil rfl).1,
   (C9_result_order envA bucket9 run9 publicURL_envA_ne_nil rfl).2
      blobNoText [1, 2, 3] rfl rfl rfl rfl (by decide)⟩

/-- Claim C10: the marker-bearing names (whose URLs are appended without
processing) and the candidate-input names are disjoint; with a
duplicate-free listing, each listed object contributes at most one URL
(the combined name list is duplicate-free). -/
theorem C10_disjointness (blobs : List Blob) (h : (blobs.map Blob.name).Nodup) :
    (∀ b ∈ (get_image_blobs blobs).1, ¬ marker <:+: b.name) ∧
    ((blobs.filter (fun b => decide (marker <:+: b.name))).map Blob.name ++
      (get_image_blobs blobs).1.map Blob.name).Nodup := by
  refine ⟨fun b hb => image_blobs_no_marker hb, ?_⟩
  rw [List.nodup_append]
  refine ⟨h.sublist (List.Sublist.map _ (List.filter_sublist _)),
          h.sublist (List.Sublist.map _ (List.filter_sublist _)), ?_⟩
  intro a ha hb
  obtain ⟨b1, hb1, hn1⟩ := List.mem_map.1 ha
  obtain ⟨b2, hb2, hn2⟩ := List.mem_map.1 hb
  have hm1 : marker <:+: b1.name := by
    have hmem := (List.mem_filter.1 hb1).2
    simpa using hmem
  have hm2 : ¬ marker <:+: b2.name := image_blobs_no_marker hb2
  exact hm2 (hn2 ▸ hn1 ▸ hm1)

/-- Witness for C10. -/
theorem C10_witness :
    (∀ b ∈ (get_image_blobs exampleBucket).1, ¬ marker <:+: b.name) ∧
    ((exampleBucket.filter (fun b => decide (marker <:+: b.name))).map Blob.name ++
      (get_image_blobs exampleBucket).1.map Blob.name).Nodup :=
  C10_disjointness exampleBucket (by decide)

/-- Claim C1, amended: provided every candidate input's name has its
first-dot base equal to its extension-stripped base (for instance names with
exactly one, non-leading dot) and public URLs are never empty, running the
workflow a second time on the bucket a successful first run produced
succeeds, yields the same URL set, performs no upload, and no
already-annotated input (one for which an output object with matching
extension-stripped base exists) is a candidate of the second run — hence
none is downloaded, detected or re-processed. -/
theorem C1_idempotence (env : Env) (B : List Blob) (r1 : RunResult)
    (hurl : ∀ n, env.publicURL n ≠ [])
    (hgood : ∀ b ∈ (get_image_blobs B).1, goodName b.name)
    (h1 : get_image_uris env B = .ok r1) :
    ∃ r2, get_image_uris env (applyUploads B r1.uploads) = .ok r2 ∧
      r2.uris.toFinset = r1.uris.toFinset ∧
      r2.uploads = [] ∧
      ∀ b ∈ (get_image_blobs (applyUploads B r1.uploads)).1,
        ¬ alreadyAnnotated (applyUploads B r1.uploads) b := by
  obtain ⟨news, hf, hu1, hup1, _⟩ := (get_image_uris_ok_iff env B r1).1 h1
  have hshape := run_uploads_shape env B r1 hgood h1
  have hfreshAll : ∀ u ∈ r1.uploads, u.name ∉ B.map Blob.name :=
    fun u hu => (hshape u hu).2.2
  obtain ⟨tail, hB2, htailups, hupsname⟩ := applyUploads_fresh B r1.uploads hfreshAll
  have htailm : ∀ t ∈ tail, marker <:+: t.name :=
    fun t ht => (hshape t (htailups t ht)).1
  rw [hB2]
  have hnone : ∀ b ∈ (get_image_blobs (B ++ tail)).1,
      ∃ o, process_blob env b = .ok o ∧ o.url = none ∧ o.uploaded = none := by
    intro b hb
    obtain ⟨hbB, hnb⟩ := (mem_cands_append B tail htailm b).1 hb
    obtain ⟨o, ho, hbo⟩ := forall₂_mem_left hf b hbB
    refine ⟨o, hbo, ?_⟩
    have hupnone : o.uploaded = none := by
      cases hub : o.uploaded with
      | none => rfl
      | some ub =>
        exfalso
        have hubups : ub ∈ r1.uploads := by
          rw [hup1]
          exact mem_flatMap_uploaded.2 ⟨o, ho, hub⟩
        obtain ⟨t, ht, htn⟩ := hupsname ub hubups
        obtain ⟨hn, _, _, _⟩ := process_blob_upload_shape env b o ub hbo hub
        have hmb : ¬ marker <:+: b.name := image_blobs_no_marker hbB
        have hstript : stripMarker t.name = (splitext b.name).1 := by
          rw [htn, hn]
          exact takeUntil_marker_append _ (not_marker_infix_base hmb)
        have hgb : firstDotBase b.name = (splitext b.name).1 := hgood b hbB
        apply hnb
        exact (mem_boxedBases_iff (B ++ tail) _).2
          ⟨t, List.mem_append_right _ ht, htailm t ht, hstript.trans hgb.symm⟩
    exact ⟨(process_blob_url_uploaded env b o hbo).2 hupnone, hupnone⟩
  obtain ⟨news2, hf2, hflat2, hflatup2⟩ := run_of_all_none env _ hnone
  refine ⟨⟨((B ++ tail).filter (fun b => decide (marker <:+: b.name))).map
      (fun b => env.publicURL b.name), [], news2⟩, ?_, ?_, rfl, ?_⟩
  · rw [get_image_uris_ok_iff]
    exact ⟨news2, hf2, by rw [hflat2, List.append_nil], hflatup2.symm, rfl⟩
  · show (((B ++ tail).filter (fun b => decide (marker <:+: b.name))).map
        (fun b => env.publicURL b.name)).toFinset = r1.uris.toFinset
    have hsets : (tail.map (fun b => env.publicURL b.name)).toFinset =
        (r1.uploads.map (fun b => env.publicURL b.name)).toFinset := by
      apply Finset.Subset.antisymm
      · intro x hx
        rw [List.mem_toFinset, List.mem_map] at hx
        obtain ⟨t, ht, htx⟩ := hx
        rw [List.mem_toFinset, List.mem_map]
        exact ⟨t, htailups t ht, htx⟩
      · intro x hx
        rw [List.mem_toFinset, List.mem_map] at hx
        obtain ⟨u, hu, hux⟩ := hx
        obtain ⟨t, ht, htn⟩ := hupsname u hu
        rw [List.mem_toFinset, List.mem_map]
        exact ⟨t, ht, by rw [← hux, htn]⟩
    rw [boxedFilter_append B tail htailm, List.map_append, hu1,
      flatMap_urlList_eq_uploads_map env hurl hf, ← hup1,
      List.toFinset_append, List.toFinset_append, hsets]
  · intro b hb
    obtain ⟨hbB, hnb⟩ := (mem_cands_append B tail htailm b).1 hb
    rintro ⟨o, ho, hmo, hso⟩
    have hgb : firstDotBase b.name = (splitext b.name).1 := hgood b hbB
    exact hnb ((mem_boxedBases_iff (B ++ tail) _).2 ⟨o, ho, hmo, hso.trans hgb.symm⟩)

/-- Claim C1 counterexample: the multi-dot input `a.b.png`.  The first run
uploads `a.b__boxed.png`; on the unchanged (post-run) bucket the input is
still selected as a candidate — it is downloaded, detected and re-processed —
although an output object with matching extension-stripped base (`a.b`)
exists, because the skip filter compares the first-dot base `a` against the
output's pre-marker portion `a.b`. -/
theorem C1_counterexample :
    get_image_uris envA [blobAB] = .ok runAB ∧
    applyUploads [blobAB] runAB.uploads = [blobAB, ubAB] ∧
    (get_image_blobs [blobAB, ubAB]).1 = [blobAB] ∧
    alreadyAnnotated [blobAB, ubAB] blobAB :=
  ⟨rfl, by decide, by decide, by decide⟩

/-- Witness for C1. -/
theorem C1_witness :
    ∃ r2, get_image_uris envA (applyUploads [blobPng] runPng.uploads) = .ok r2 ∧
      r2.uris.toFinset = runPng.uris.toFinset ∧
      r2.uploads = [] ∧
      ∀ b ∈ (get_image_blobs (applyUploads [blobPng] runPng.uploads)).1,
        ¬ alreadyAnnotated (applyUploads [blobPng] runPng.uploads) b :=
  C1_idempotence envA [blobPng] runPng publicURL_envA_ne_nil (by decide) rfl

end TextDetector
